import Mathlib

/-!
Shallow embedding of the dashdotcache cache engine
(`src/cache.rs`, `src/cache_errors.rs`, `src/executor.rs`).

Modelling conventions:
* Rust `Instant` and `Duration` are nanosecond counts (`Nat`); the current
  instant `now` is passed explicitly to every operation that calls
  `Instant::now()`.
* `std::mem::size_of` results are fixed platform constants (x86-64 values);
  no claim depends on their exact magnitude, only on the accounting formulas.
* Rust `String` is modelled as content plus heap capacity (`Str`), since
  `String::capacity` enters the memory accounting.
* The concurrent `DashMap<String, Entry>` is modelled as an association list
  keyed by the string content; a single-threaded interleaving is assumed
  (all claims are about the sequential semantics of single operations).
* Fallible operations return their `Result` together with the post-state:
  `(Except CacheError α) × Cache`.  Error paths in the Rust code return
  before mutating, which the embedding mirrors by returning the input state.
* The recursion in `Entry::is_valid` and the loops in
  `Cache::would_create_cycle` / `Cache::children_recursive` are given
  explicit fuel; the fuel chosen is provably sufficient for every store the
  Rust code can reach (acyclic parent graphs), as the lemmas below show.
-/

/-- Nanoseconds per second; `Duration::as_secs` divides by this (floor). -/
def nanosPerSec : Nat := 1000000000

/-- `usize::MAX` on a 64-bit platform (the depth bound the executor passes to
`children_recursive` for GetInfo). -/
def usizeMax : Nat := 2 ^ 64 - 1

/-- `std::mem::size_of::<i64>()`. -/
def sizeOfI64 : Nat := 8

/-- `std::mem::size_of::<f64>()`. -/
def sizeOfF64 : Nat := 8

/-- `std::mem::size_of_val` of a `HashMap<String, Value>` (stack size). -/
def sizeOfHashMapVal : Nat := 48

/-- `std::mem::size_of_val` of a `Vec<Value>` (stack size). -/
def sizeOfVecVal : Nat := 24

/-- `std::mem::size_of_val` of a `HashSet<String>` (stack size). -/
def sizeOfHashSetVal : Nat := 48

/-- `std::mem::size_of_val` of an `Entry` (stack size of the struct). -/
def sizeOfEntryVal : Nat := 160

/-- `size_of::<Cache>() + size_of::<DashMap<String, Entry>>()`, the base
memory stored into the gauge by `Cache::new`. -/
def cacheBaseMemory : Nat := 256

/-- Model of a Rust `String`: UTF-8 content plus its heap `capacity`.
Equality of Rust strings compares content only; `capacity` feeds the
memory accounting. -/
structure Str where
  data : String
  cap : Nat
deriving DecidableEq

/-- Model of a Rust `Vec<u8>`: bytes plus heap `capacity`. -/
structure ByteBuf where
  data : List Nat
  cap : Nat
deriving DecidableEq

/-- `Value` (cache.rs): tagged union of the supported datatypes.
Constructors correspond to `String`, `Integer`, `Float`, `Bytes`, `Hash`,
`List`, `Set`.  The `f64` payload is kept as its bit pattern: no claim
depends on float arithmetic or formatting. -/
inductive Value where
  | vstr (s : Str)
  | vint (i : Int)
  | vfloat (bits : Nat)
  | vbytes (b : ByteBuf)
  | vhash (h : List (Str × Value))
  | vlist (l : List Value)
  | vset (s : List Str)

/-- `Value::type_name` (cache.rs). -/
def Value.type_name : Value → String
  | .vstr _ => "string"
  | .vint _ => "integer"
  | .vfloat _ => "float"
  | .vbytes _ => "bytes"
  | .vhash _ => "hash"
  | .vlist _ => "list"
  | .vset _ => "set"

mutual

/-- `Value::memory_usage` (cache.rs): strings and byte buffers report their
capacity, scalars their `size_of`, containers a stack-size constant plus the
recursive sum over their elements. -/
def Value.memory_usage : Value → Nat
  | .vstr s => s.cap
  | .vint _ => sizeOfI64
  | .vfloat _ => sizeOfF64
  | .vbytes b => b.cap
  | .vhash h => sizeOfHashMapVal + memHash h
  | .vlist l => sizeOfVecVal + memList l
  | .vset s => sizeOfHashSetVal + memSet s

/-- Sum of `k.capacity() + v.memory_usage()` over the fields of a hash value. -/
def memHash : List (Str × Value) → Nat
  | [] => 0
  | (k, v) :: rest => k.cap + v.memory_usage + memHash rest

/-- Sum of `v.memory_usage()` over the items of a list value. -/
def memList : List Value → Nat
  | [] => 0
  | v :: rest => v.memory_usage + memList rest

/-- Sum of `v.capacity()` over the members of a set value. -/
def memSet : List Str → Nat
  | [] => 0
  | s :: rest => s.cap + memSet rest

end

/-- `Ttl` (cache.rs): absolute expiry instant, sliding flag, original
duration. -/
structure Ttl where
  expires_at : Nat
  sliding : Bool
  duration : Nat
deriving DecidableEq

/-- `Ttl::new`: non-sliding, expiring `duration` after `now`. -/
def Ttl.new (now duration : Nat) : Ttl :=
  { expires_at := now + duration, sliding := false, duration := duration }

/-- `Ttl::is_expired`: `Instant::now() >= self.expires_at`. -/
def Ttl.is_expired (t : Ttl) (now : Nat) : Bool :=
  t.expires_at ≤ now

/-- `Ttl::reset`: re-anchor the expiry only when sliding. -/
def Ttl.reset (t : Ttl) (now : Nat) : Ttl :=
  if t.sliding then { t with expires_at := now + t.duration } else t

/-- `Ttl::remaining`: the positive residual, or `none` when expired. -/
def Ttl.remaining (t : Ttl) (now : Nat) : Option Nat :=
  if t.expires_at ≤ now then none else some (t.expires_at - now)

/-- `Entry` (cache.rs): stored value, optional `Ttl`, optional parent key,
access counters and timestamps. -/
structure Entry where
  value : Value
  ttl : Option Ttl
  parent : Option Str
  access_count : Nat
  last_accessed : Nat
  created_at : Nat

/-- `Entry::mark_accessed`: bump the access count, refresh `last_accessed`,
reset a sliding TTL. -/
def Entry.mark_accessed (e : Entry) (now : Nat) : Entry :=
  { e with
    access_count := e.access_count + 1
    last_accessed := now
    ttl := e.ttl.map (fun t => t.reset now) }

/-- `Entry::memory_usage`: struct stack size plus the value's usage plus the
parent key's capacity when present. -/
def Entry.memory_usage (e : Entry) : Nat :=
  sizeOfEntryVal + e.value.memory_usage +
    (match e.parent with
     | some p => p.cap
     | none => 0)

/-- `Stats` (cache.rs): the four monotone counters and the memory gauge.
The atomics are modelled as plain naturals (single-threaded interleaving). -/
structure Stats where
  hits : Nat
  misses : Nat
  sets : Nat
  deletes : Nat
  memory_usage : Nat
deriving DecidableEq

/-- `Config` (cache.rs). -/
structure Config where
  max_memory : Option Nat
  max_keys : Option Nat
  enable_dependencies : Bool
  ttl_cleanup_interval : Nat
deriving DecidableEq

/-- `Config::default`. -/
def Config.default : Config :=
  { max_memory := none, max_keys := none, enable_dependencies := true,
    ttl_cleanup_interval := 60 * nanosPerSec }

/-- `CacheError` (cache_errors.rs). -/
inductive CacheError where
  | dependenciesDisabled
  | parentNotFound (parent : String)
  | dependencyCycle (key parent : String)
  | memoryLimitExceeded
  | keyLimitExceeded
deriving DecidableEq

/-- `SetOptions` (cache.rs).  The TTL option is a duration in nanoseconds. -/
structure SetOptions where
  ttl : Option Nat
  parent : Option Str
  nx : Bool
  xx : Bool

/-- `SetOptions::default`. -/
def SetOptions.empty : SetOptions :=
  { ttl := none, parent := none, nx := false, xx := false }

/-- The cache state: the sharded `DashMap` flattened to an association list
(in iteration order), the configuration, and the stats block. -/
structure Cache where
  data : List (Str × Entry)
  config : Config
  stats : Stats

/-- `DashMap::get`: first entry whose key content matches. -/
def lookupE : List (Str × Entry) → String → Option Entry
  | [], _ => none
  | (k, e) :: rest, q => if k.data = q then some e else lookupE rest q

/-- `DashMap::contains_key`. -/
def containsKey (data : List (Str × Entry)) (q : String) : Bool :=
  (lookupE data q).isSome

/-- `DashMap::insert`: replace the entry of an existing key (keeping the
stored key object, as Rust hash maps do), or append a new binding. -/
def insertStore : List (Str × Entry) → Str → Entry → List (Str × Entry)
  | [], k, e => [(k, e)]
  | (k0, e0) :: rest, k, e =>
    if k0.data = k.data then (k0, e) :: rest
    else (k0, e0) :: insertStore rest k e

/-- `DashMap::remove`: drop the first binding with the given key content. -/
def eraseKey : List (Str × Entry) → String → List (Str × Entry)
  | [], _ => []
  | (k0, e0) :: rest, q =>
    if k0.data = q then rest else (k0, e0) :: eraseKey rest q

/-- In-place mutation through `DashMap::get_mut`: apply `f` to the entry of
the first binding with the given key content. -/
def modifyEntry : List (Str × Entry) → String → (Entry → Entry) → List (Str × Entry)
  | [], _, _ => []
  | (k0, e0) :: rest, q, f =>
    if k0.data = q then (k0, f e0) :: rest else (k0, e0) :: modifyEntry rest q f

/-- The key contents present in the store, in iteration order. -/
def storeKeys (data : List (Str × Entry)) : List String :=
  data.map (fun kv => kv.1.data)

/-- `Entry::is_valid` (cache.rs): the entry is valid iff its own TTL (when
present) has not expired and its parent chain (when present) resolves to
valid entries.  The Rust recursion terminates on every acyclic parent
graph; `fuel` bounds the recursion depth and `data.length + 1` is always
sufficient there (each hop consumes a distinct stored entry). -/
def Entry.is_valid (now : Nat) (data : List (Str × Entry)) : Nat → Entry → Bool
  | 0, _ => false
  | fuel + 1, e =>
    (match e.ttl with
     | some t => !(t.is_expired now)
     | none => true)
    &&
    (match e.parent with
     | some p =>
       match lookupE data p.data with
       | some pe => Entry.is_valid now data fuel pe
       | none => false
     | none => true)

/-- The loop of `Cache::would_create_cycle`: walk upward from `current`
following parent links, returning `true` on reaching `key` or on revisiting
a node, `false` on falling off the chain.  The Rust loop always terminates
(the visited set grows by a distinct key each iteration), and
`data.length + 2` fuel always suffices; the fuel-exhaustion branch returns
`true` (reject) and is unreachable at that fuel. -/
def wouldCycleAux (data : List (Str × Entry)) (key : String) :
    Nat → List String → String → Bool
  | 0, _, _ => true
  | fuel + 1, visited, current =>
    if current = key then true
    else if visited.contains current then true
    else
      match lookupE data current with
      | some e =>
        match e.parent with
        | some p => wouldCycleAux data key fuel (current :: visited) p.data
        | none => false
      | none => false

/-- `Cache::would_create_cycle` (cache.rs). -/
def Cache.would_create_cycle (c : Cache) (key parent : String) : Bool :=
  if key = parent then true
  else wouldCycleAux c.data key (c.data.length + 2) [] parent

/-- One upward hop in the parent graph: the parent key of `k`'s entry, or
`none` when `k` is absent or has no parent.  (Specification-side notion used
to state reachability; it mirrors `self.data.get(&current_key).and_then(|e|
e.parent.clone())` from the cycle walk.) -/
def parentStep (data : List (Str × Entry)) (k : String) : Option String :=
  match lookupE data k with
  | some e => e.parent.map (fun p => p.data)
  | none => none

/-- `d` upward hops in the parent graph starting from `k`. -/
def chainIter (data : List (Str × Entry)) : Nat → String → Option String
  | 0, k => some k
  | d + 1, k =>
    match parentStep data k with
    | some p => chainIter data d p
    | none => none

/-- `Cache::new` (cache.rs): empty store, zero counters, and the base memory
constant stored into the gauge. -/
def Cache.new (config : Config) : Cache :=
  { data := []
    config := config
    stats := { hits := 0, misses := 0, sets := 0, deletes := 0,
               memory_usage := cacheBaseMemory } }

/-- `Cache::get` (cache.rs): a missing key counts a miss; a present but
invalid entry counts a miss, is removed from the store (with no adjustment
of the memory gauge) and reads as absent; a valid entry is marked accessed,
counts a hit, and its value is returned. -/
def Cache.get (c : Cache) (now : Nat) (key : String) : Option Value × Cache :=
  match lookupE c.data key with
  | some e =>
    if !(Entry.is_valid now c.data (c.data.length + 1) e) then
      (none,
        { c with
          data := eraseKey c.data key
          stats := { c.stats with misses := c.stats.misses + 1 } })
    else
      (some e.value,
        { c with
          data := modifyEntry c.data key (fun e0 => e0.mark_accessed now)
          stats := { c.stats with hits := c.stats.hits + 1 } })
  | none =>
    (none, { c with stats := { c.stats with misses := c.stats.misses + 1 } })

/-- `Cache::ttl` (cache.rs): `-2` when absent, `-1` when present without a
TTL, otherwise the remaining whole seconds (or `-2` when already expired). -/
def Cache.ttl (c : Cache) (now : Nat) (key : String) : Int :=
  match lookupE c.data key with
  | none => -2
  | some e =>
    match e.ttl with
    | none => -1
    | some t =>
      match t.remaining now with
      | some r => Int.ofNat (r / nanosPerSec)
      | none => -2

/-- The entry constructed by `Cache::set` before insertion: fresh
timestamps, zero access count, the requested TTL (absolute) and parent. -/
def mkEntry (now : Nat) (value : Value) (options : SetOptions) : Entry :=
  { value := value
    ttl := options.ttl.map (Ttl.new now)
    parent := options.parent
    access_count := 0
    last_accessed := now
    created_at := now }

/-- `Cache::insert_entry` (cache.rs): admission control then insertion.
The memory delta is always the full `key.capacity() + entry.memory_usage()`
of the incoming binding — nothing is subtracted for a replaced entry —
both in the `max_memory` comparison and in the gauge update. -/
def Cache.insert_entry (c : Cache) (key : Str) (entry : Entry) :
    Except CacheError Unit × Cache :=
  let memory_delta := key.cap + entry.memory_usage
  let memFail :=
    match c.config.max_memory with
    | some max_memory => decide (c.stats.memory_usage + memory_delta > max_memory)
    | none => false
  if memFail then (.error .memoryLimitExceeded, c)
  else
    let keyFail :=
      match c.config.max_keys with
      | some max_keys =>
        decide (c.data.length ≥ max_keys) && !(containsKey c.data key.data)
      | none => false
    if keyFail then (.error .keyLimitExceeded, c)
    else
      (.ok (),
        { c with
          data := insertStore c.data key entry
          stats := { c.stats with
                     sets := c.stats.sets + 1
                     memory_usage := c.stats.memory_usage + memory_delta } })

/-- `Cache::set` (cache.rs): `nx`/`xx` short-circuits, the dependency checks
for a parent option (`enable_dependencies`, parent existence, cycle), then
entry construction and admission-controlled insertion. -/
def Cache.set (c : Cache) (now : Nat) (key : Str) (value : Value)
    (options : SetOptions) : Except CacheError Bool × Cache :=
  let exists0 := containsKey c.data key.data
  if options.nx && exists0 then (.ok false, c)
  else if options.xx && !exists0 then (.ok false, c)
  else
    let proceed : Unit → Except CacheError Bool × Cache := fun _ =>
      let res := Cache.insert_entry c key (mkEntry now value options)
      (res.1.map (fun _ => true), res.2)
    match options.parent with
    | some parent_key =>
      if !c.config.enable_dependencies then (.error .dependenciesDisabled, c)
      else if !(containsKey c.data parent_key.data) then
        (.error (.parentNotFound parent_key.data), c)
      else if c.would_create_cycle key.data parent_key.data then
        (.error (.dependencyCycle key.data parent_key.data), c)
      else proceed ()
    | none => proceed ()

/-- `Cache::expire` (cache.rs): install a fresh non-sliding TTL of `seconds`
on a present key (returning 1), report 0 on a missing key. -/
def Cache.expire (c : Cache) (now : Nat) (key : String) (seconds : Nat) :
    Int × Cache :=
  match lookupE c.data key with
  | some _ =>
    (1, { c with
          data := modifyEntry c.data key
            (fun e => { e with ttl := some (Ttl.new now (seconds * nanosPerSec)) }) })
  | none => (0, c)

/-- `Cache::persist` (cache.rs): clear the TTL of a present key (returning
1), report 0 on a missing key. -/
def Cache.persist (c : Cache) (key : String) : Int × Cache :=
  match lookupE c.data key with
  | some _ =>
    (1, { c with data := modifyEntry c.data key (fun e => { e with ttl := none }) })
  | none => (0, c)

/-- `Cache::exists` (cache.rs): a valid entry exists; no stats update, no
lazy eviction. -/
def Cache.existsKey (c : Cache) (now : Nat) (key : String) : Bool :=
  match lookupE c.data key with
  | some e => Entry.is_valid now c.data (c.data.length + 1) e
  | none => false

/-- `Cache::parent` (cache.rs). -/
def Cache.parent (c : Cache) (key : String) : Option String :=
  match lookupE c.data key with
  | some e => e.parent.map (fun p => p.data)
  | none => none

/-- `Cache::set_parent` (cache.rs): requires the parent to exist, runs the
cycle check, then updates the target entry's parent (1) or reports a
missing target (0).  Note: no `enable_dependencies` check appears here. -/
def Cache.set_parent (c : Cache) (key : String) (parent : Str) :
    Except CacheError Int × Cache :=
  if !(containsKey c.data parent.data) then
    (.error (.parentNotFound parent.data), c)
  else if c.would_create_cycle key parent.data then
    (.error (.dependencyCycle key parent.data), c)
  else
    match lookupE c.data key with
    | some _ =>
      (.ok 1,
        { c with data := modifyEntry c.data key (fun e => { e with parent := some parent }) })
    | none => (.ok 0, c)

/-- One level of `Cache::children_recursive`: the stored bindings whose
parent field lies in `parents`. -/
def levelEntries (data : List (Str × Entry)) (parents : List String) :
    List (Str × Entry) :=
  data.filter (fun kv =>
    match kv.2.parent with
    | some p => parents.contains p.data
    | none => false)

/-- The loop of `Cache::children_recursive`: at each depth, scan the store
for entries whose parent is in the current frontier, emit them with the
depth label, and recurse on the found keys; stop on an empty frontier or
when the depth bound is exhausted. -/
def childrenRecAux (data : List (Str × Entry)) :
    Nat → Nat → List String → List (String × Nat)
  | 0, _, _ => []
  | fuel + 1, depth, parents =>
    if parents.isEmpty then []
    else
      let found := levelEntries data parents
      found.map (fun kv => (kv.1.data, depth)) ++
        childrenRecAux data fuel (depth + 1) (found.map (fun kv => kv.1.data))

/-- `Cache::children_recursive` (cache.rs). -/
def Cache.children_recursive (c : Cache) (parent_key : String)
    (max_depth : Nat) : List (String × Nat) :=
  childrenRecAux c.data max_depth 1 [parent_key]

/-- `Cache::flush_all` (cache.rs): clear the store and zero the memory
gauge; the hit/miss/set/delete counters are untouched. -/
def Cache.flush_all (c : Cache) : Cache :=
  { c with data := [], stats := { c.stats with memory_usage := 0 } }

/-- `Cache::len` (cache.rs). -/
def Cache.len (c : Cache) : Nat :=
  c.data.length

/-- `Cache::memory_usage` (cache.rs). -/
def Cache.memory_usage (c : Cache) : Nat :=
  c.stats.memory_usage

/-- `Value`'s `Display` implementation (cache.rs).  The float case formats
an `f64`; it is modelled as a rendering of the bit pattern (no claim
depends on float formatting). -/
def Value.display : Value → String
  | .vstr s => s.data
  | .vint i => toString i
  | .vfloat bits => toString bits
  | .vbytes b => toString b.data.length ++ " bytes"
  | .vhash h => "hash with " ++ toString h.length ++ " fields"
  | .vlist l => "list with " ++ toString l.length ++ " items"
  | .vset s => "set with " ++ toString s.length ++ " members"

/-- `KeyInfo` (executor.rs).  The Rust field `exists` is `keyExists` here
(`exists` is reserved in Lean). -/
structure KeyInfo where
  key : String
  keyExists : Bool
  ttl : Int
  value : Option String
  parent : Option String
  children_count : Nat

/-- The `Command::GetInfo` arm of `CommandExecutor::execute` (executor.rs):
`exists` and `ttl` are read on the incoming state, then `get` runs (and may
mutate the cache), and `parent` and the unbounded `children_recursive`
(depth `usize::MAX`) are read on the post-`get` state. -/
def execGetInfo (c : Cache) (now : Nat) (key : String) : KeyInfo × Cache :=
  let ex := c.existsKey now key
  let t := c.ttl now key
  let r := c.get now key
  let c1 := r.2
  let p := c1.parent key
  let children_count := (c1.children_recursive key usizeMax).length
  ({ key := key, keyExists := ex, ttl := t, value := r.1.map Value.display,
     parent := p, children_count := children_count }, c1)

/-! ## Specification-side notions

These definitions follow the spec's wording (direct children, transitive
descendants, reachability along parent links); they are compared against
the code-derived definitions above. -/

/-- Modelled from the spec: the *direct* children of `parentKey` are the
stored entries whose `parent` field equals `parentKey`. -/
def directChildrenKeys (data : List (Str × Entry)) (parentKey : String) :
    List String :=
  (data.filter (fun kv =>
    match kv.2.parent with
    | some p => p.data = parentKey
    | none => false)).map (fun kv => kv.1.data)

/-- `k`'s parent chain reaches `target` in between 1 and `bound` hops. -/
def reachesWithin (data : List (Str × Entry)) (bound : Nat) (k target : String) :
    Bool :=
  (List.range (bound + 1)).any
    (fun d => decide (1 ≤ d) && decide (chainIter data d k = some target))

/-- Modelled from the spec: the transitive descendants of `target` are the
stored keys whose parent chain reaches `target` (a chain that does so
without repetition has at most `data.length` hops, hence the bound). -/
def transitiveDescendantKeys (data : List (Str × Entry)) (target : String) :
    List String :=
  (data.filter (fun kv => reachesWithin data data.length kv.1.data target)).map
    (fun kv => kv.1.data)

/-- Every parent chain starting at a stored key eventually falls off the
graph: the finite-store formulation of cycle-freedom (spec §4.5: the parent
relation forms a forest). -/
def Terminating (data : List (Str × Entry)) : Prop :=
  ∀ k, k ∈ storeKeys data → ∃ m, chainIter data m k = none

/-- The breadth-first level sets of the parent graph below `target`:
level 0 is `[target]`, level `d+1` holds the keys of entries whose parent
lies in level `d` (exactly the frontier `children_recursive` computes). -/
def levelKeys (data : List (Str × Entry)) (target : String) : Nat → List String
  | 0 => [target]
  | d + 1 => (levelEntries data (levelKeys data target d)).map (fun kv => kv.1.data)

/-! ## Store lemmas -/

theorem lookupE_isSome_iff_mem (data : List (Str × Entry)) (q : String) :
    (lookupE data q).isSome = true ↔ q ∈ storeKeys data := by
  induction data with
  | nil => simp [lookupE, storeKeys]
  | cons kv rest ih =>
    obtain ⟨k, e⟩ := kv
    by_cases h : k.data = q
    · simp [lookupE, storeKeys, h]
    · simp only [lookupE, storeKeys, List.map_cons, List.mem_cons, if_neg h]
      rw [storeKeys] at ih
      rw [ih]
      constructor
      · exact fun hm => Or.inr hm
      · rintro (hq | hm)
        · exact absurd hq.symm h
        · exact hm

theorem mem_storeKeys_of_lookupE {data : List (Str × Entry)} {q : String}
    {e : Entry} (h : lookupE data q = some e) : q ∈ storeKeys data := by
  rw [← lookupE_isSome_iff_mem, h]
  rfl

theorem lookupE_eq_some_of_mem {data : List (Str × Entry)}
    (hnd : (storeKeys data).Nodup) {kS : Str} {e : Entry}
    (hm : (kS, e) ∈ data) : lookupE data kS.data = some e := by
  induction data with
  | nil => cases hm
  | cons kv rest ih =>
    obtain ⟨k0, e0⟩ := kv
    rw [storeKeys, List.map_cons, List.nodup_cons] at hnd
    rcases List.mem_cons.mp hm with heq | htail
    · obtain ⟨hk, he⟩ := Prod.mk.injEq .. ▸ congrArg id heq
      · simp [lookupE, ← hk, ← he]
    · have hne : k0.data ≠ kS.data := by
        intro hcontra
        exact hnd.1 (hcontra ▸ List.mem_map.mpr ⟨(kS, e), htail, rfl⟩)
      rw [lookupE, if_neg hne]
      exact ih (by simpa [storeKeys] using hnd.2) htail

theorem exists_mem_of_lookupE {data : List (Str × Entry)} {q : String}
    {e : Entry} (h : lookupE data q = some e) :
    ∃ kS, (kS, e) ∈ data ∧ kS.data = q := by
  induction data with
  | nil => simp [lookupE] at h
  | cons kv rest ih =>
    obtain ⟨k0, e0⟩ := kv
    by_cases hk : k0.data = q
    · rw [lookupE, if_pos hk] at h
      cases Option.some_inj.mp h
      exact ⟨k0, List.mem_cons_self .., hk⟩
    · rw [lookupE, if_neg hk] at h
      obtain ⟨kS, hm, hq⟩ := ih h
      exact ⟨kS, List.mem_cons_of_mem _ hm, hq⟩

theorem lookupE_insertStore_self (data : List (Str × Entry)) (k : Str)
    (e : Entry) : lookupE (insertStore data k e) k.data = some e := by
  induction data with
  | nil => simp [insertStore, lookupE]
  | cons kv rest ih =>
    obtain ⟨k0, e0⟩ := kv
    by_cases h : k0.data = k.data
    · rw [insertStore, if_pos h, lookupE, if_pos h]
    · rw [insertStore, if_neg h, lookupE, if_neg h]
      exact ih

theorem lookupE_modifyEntry_self (data : List (Str × Entry)) (q : String)
    (f : Entry → Entry) :
    lookupE (modifyEntry data q f) q = (lookupE data q).map f := by
  induction data with
  | nil => simp [modifyEntry, lookupE]
  | cons kv rest ih =>
    obtain ⟨k0, e0⟩ := kv
    by_cases h : k0.data = q
    · rw [modifyEntry, if_pos h, lookupE, if_pos h, lookupE, if_pos h]
      rfl
    · rw [modifyEntry, if_neg h, lookupE, if_neg h, lookupE, if_neg h]
      exact ih

theorem lookupE_modifyEntry_ne (data : List (Str × Entry)) {q q' : String}
    (f : Entry → Entry) (h : q' ≠ q) :
    lookupE (modifyEntry data q f) q' = lookupE data q' := by
  induction data with
  | nil => simp [modifyEntry, lookupE]
  | cons kv rest ih =>
    obtain ⟨k0, e0⟩ := kv
    by_cases hk : k0.data = q
    · have hne : k0.data ≠ q' := by
        rw [hk]
        exact fun hc => h hc.symm
      rw [modifyEntry, if_pos hk, lookupE, if_neg hne, lookupE, if_neg hne]
    · by_cases hk' : k0.data = q'
      · rw [modifyEntry, if_neg hk, lookupE, if_pos hk', lookupE, if_pos hk']
      · rw [modifyEntry, if_neg hk, lookupE, if_neg hk', lookupE, if_neg hk']
        exact ih

/-! ## Parent-chain lemmas -/

theorem chainIter_add (data : List (Str × Entry)) (a b : Nat) (k : String) :
    chainIter data (a + b) k = (chainIter data a k).bind (chainIter data b) := by
  induction a generalizing k with
  | zero => simp [chainIter]
  | succ a ih =>
    rw [Nat.succ_add, chainIter, chainIter]
    cases parentStep data k with
    | none => rfl
    | some p => exact ih p

theorem chainIter_split {data : List (Str × Entry)} {a b : Nat} {k t : String}
    (h : chainIter data (a + b) k = some t) :
    ∃ x, chainIter data a k = some x ∧ chainIter data b x = some t := by
  rw [chainIter_add] at h
  cases hx : chainIter data a k with
  | none => rw [hx] at h; cases h
  | some x => rw [hx] at h; exact ⟨x, rfl, h⟩

theorem chainIter_none_persist {data : List (Str × Entry)} {m : Nat}
    {k : String} (h : chainIter data m k = none) {m' : Nat} (hle : m ≤ m') :
    chainIter data m' k = none := by
  obtain ⟨b, rfl⟩ := Nat.exists_eq_add_of_le hle
  rw [chainIter_add, h]
  rfl

theorem chainIter_cycle_mult {data : List (Str × Entry)} {l : Nat}
    {t : String} (h : chainIter data l t = some t) (j : Nat) :
    chainIter data (j * l) t = some t := by
  induction j with
  | zero => rw [Nat.zero_mul]; rfl
  | succ j ih =>
    rw [Nat.succ_mul, chainIter_add, ih]
    exact h

theorem mem_storeKeys_of_chain_pos {data : List (Str × Entry)} {d : Nat}
    {k t : String} (hd : 1 ≤ d) (h : chainIter data d k = some t) :
    k ∈ storeKeys data := by
  obtain ⟨d', rfl⟩ := Nat.exists_eq_add_of_le hd
  rw [Nat.add_comm, chainIter] at h
  cases hp : parentStep data k with
  | none => rw [hp] at h; cases h
  | some p =>
    rw [parentStep] at hp
    cases hl : lookupE data k with
    | none => rw [hl] at hp; cases hp
    | some e => exact mem_storeKeys_of_lookupE hl

/-- A chain that returns to its start would make every chain from that node
endless, contradicting `Terminating`. -/
theorem no_cycle_of_terminating {data : List (Str × Entry)}
    (hterm : Terminating data) {l : Nat} {t : String} (hl : 1 ≤ l)
    (h : chainIter data l t = some t) : False := by
  have hmem : t ∈ storeKeys data := mem_storeKeys_of_chain_pos hl h
  obtain ⟨m, hm⟩ := hterm t hmem
  have hmult : chainIter data (m * l) t = some t := chainIter_cycle_mult h m
  have hle : m ≤ m * l := Nat.le_mul_of_pos_right m hl
  rw [chainIter_none_persist hm hle] at hmult
  cases hmult

/-- If the cycle walk rejects nothing (`false`), no parent chain from the
walk's start reaches `key`. -/
theorem wouldCycleAux_false {data : List (Str × Entry)} {key : String} :
    ∀ {fuel : Nat} {visited : List String} {current : String},
      wouldCycleAux data key fuel visited current = false →
      ∀ m, chainIter data m current ≠ some key := by
  intro fuel
  induction fuel with
  | zero => intro visited current h; cases h
  | succ fuel ih =>
    intro visited current h m
    rw [wouldCycleAux] at h
    by_cases hck : current = key
    · rw [if_pos hck] at h; cases h
    · rw [if_neg hck] at h
      by_cases hv : visited.contains current
      · rw [if_pos hv] at h; cases h
      · rw [if_neg hv] at h
        cases m with
        | zero =>
          intro hc
          exact hck (Option.some_inj.mp hc)
        | succ m =>
          split at h
          next e heq =>
            split at h
            next p hp =>
              have hps : parentStep data current = some p.data := by
                simp [parentStep, heq, hp]
              simp only [chainIter, hps]
              exact ih h m
            next hp =>
              have hps : parentStep data current = none := by
                simp [parentStep, heq, hp]
              simp [chainIter, hps]
          next heq =>
            have hps : parentStep data current = none := by
              simp [parentStep, heq]
            simp [chainIter, hps]

/-- If some parent chain from `parent` reaches `key` (including the
zero-hop case `key = parent`), `would_create_cycle` reports a cycle. -/
theorem would_create_cycle_of_reach {c : Cache} {key parent : String}
    (h : ∃ n, chainIter c.data n parent = some key) :
    c.would_create_cycle key parent = true := by
  obtain ⟨n, hn⟩ := h
  rw [Cache.would_create_cycle]
  by_cases hkp : key = parent
  · rw [if_pos hkp]
  · rw [if_neg hkp]
    cases haux : wouldCycleAux c.data key (c.data.length + 2) [] parent with
    | true => rfl
    | false => exact absurd hn (wouldCycleAux_false haux n)

/-! ## Concrete fixtures for witnesses and counterexamples -/

def strA : Str := ⟨"a", 1⟩

def strB : Str := ⟨"b", 1⟩

def strC : Str := ⟨"c", 1⟩

def strK : Str := ⟨"k", 1⟩

def strP : Str := ⟨"p", 1⟩

def strT : Str := ⟨"t", 1⟩

/-- `SetOptions` with a 5-second TTL. -/
def ttlOptions : SetOptions := { SetOptions.empty with ttl := some (5 * nanosPerSec) }

/-- `SetOptions` carrying a parent. -/
def parentOptions (p : Str) : SetOptions := { SetOptions.empty with parent := some p }

/-- A cache holding one entry at key `t` with a 5-second TTL, written at
instant 0. -/
def cacheWithT : Cache := ((Cache.new Config.default).set 0 strT (.vint 1) ttlOptions).2

/-- A cache holding one plain entry at key `a`. -/
def cacheReplA : Cache := ((Cache.new Config.default).set 0 strA (.vint 1) SetOptions.empty).2

/-- `cacheReplA` after overwriting key `a` with a same-sized value. -/
def cacheReplB : Cache := (cacheReplA.set 0 strA (.vint 2) SetOptions.empty).2

/-- A configuration with a 500-byte memory limit. -/
def limitConfig : Config := { Config.default with max_memory := some 500 }

/-- A cache under `limitConfig` holding one entry at key `a`
(256 base + 169 = 425 bytes accounted). -/
def cacheLimA : Cache := ((Cache.new limitConfig).set 0 strA (.vint 1) SetOptions.empty).2

/-- A configuration with dependencies disabled. -/
def noDepsConfig : Config := { Config.default with enable_dependencies := false }

/-- A dependencies-disabled cache holding plain entries at keys `p` and `k`. -/
def cacheNoDeps : Cache :=
  (((Cache.new noDepsConfig).set 0 strP (.vint 1) SetOptions.empty).2.set
    0 strK (.vint 2) SetOptions.empty).2

/-- A cache holding the dependency chain `c → b → a` (each entry's parent is
the next letter down). -/
def chainCache : Cache :=
  ((((Cache.new Config.default).set 0 strA (.vint 1) SetOptions.empty).2.set
    0 strB (.vint 2) (parentOptions strA)).2.set 0 strC (.vint 3) (parentOptions strB)).2

/-- A configuration admitting at most one key. -/
def keyLimitConfig : Config := { Config.default with max_keys := some 1 }

/-- A cache at its one-key limit. -/
def cacheKeyLim : Cache := ((Cache.new keyLimitConfig).set 0 strA (.vint 1) SetOptions.empty).2

/-! ## Claim C9 -/

/-- C9: after `flush_all` on any cache state, `len` is 0 and `memory_usage`
is 0, while the hits, misses, sets and deletes counters retain their prior
values. -/
theorem flush_resets_data_not_counters (c : Cache) :
    c.flush_all.len = 0 ∧ c.flush_all.memory_usage = 0 ∧
    c.flush_all.stats.hits = c.stats.hits ∧
    c.flush_all.stats.misses = c.stats.misses ∧
    c.flush_all.stats.sets = c.stats.sets ∧
    c.flush_all.stats.deletes = c.stats.deletes :=
  ⟨rfl, rfl, rfl, rfl, rfl, rfl⟩

/-! ## Claim C7 -/

/-- C7: `ttl` returns -2 when the key is absent; -1 when present with no
TTL; -2 when the TTL has already expired at call time; otherwise the
non-negative whole number of seconds remaining, rounded down. -/
theorem ttl_sentinel_semantics (c : Cache) (now : Nat) (key : String) :
    (lookupE c.data key = none → c.ttl now key = -2) ∧
    (∀ e, lookupE c.data key = some e → e.ttl = none → c.ttl now key = -1) ∧
    (∀ e t, lookupE c.data key = some e → e.ttl = some t →
      t.expires_at ≤ now → c.ttl now key = -2) ∧
    (∀ e t, lookupE c.data key = some e → e.ttl = some t →
      now < t.expires_at →
      c.ttl now key = Int.ofNat ((t.expires_at - now) / nanosPerSec) ∧
      0 ≤ c.ttl now key) := by
  refine ⟨?_, ?_, ?_, ?_⟩
  · intro h
    simp [Cache.ttl, h]
  · intro e he ht
    simp [Cache.ttl, he, ht]
  · intro e t he ht hle
    simp [Cache.ttl, he, ht, Ttl.remaining, hle]
  · intro e t he ht hlt
    have hnot : ¬ t.expires_at ≤ now := Nat.not_le.mpr hlt
    constructor
    · simp [Cache.ttl, he, ht, Ttl.remaining, hnot]
    · simp only [Cache.ttl, he, ht, Ttl.remaining, if_neg hnot]
      exact Int.ofNat_nonneg _

/-- Witness for C7: 5 seconds remain right after the write; -2 once the
TTL has expired; -2 on an absent key. -/
theorem ttl_sentinel_semantics_witness :
    cacheWithT.ttl 0 "t" = 5 ∧ cacheWithT.ttl (6 * nanosPerSec) "t" = -2 ∧
    (Cache.new Config.default).ttl 0 "t" = -2 := by
  refine ⟨?_, ?_, ?_⟩
  · have h := (ttl_sentinel_semantics cacheWithT 0 "t").2.2.2
      (mkEntry 0 (.vint 1) ttlOptions) (Ttl.new 0 (5 * nanosPerSec)) rfl rfl
      (by decide)
    rw [h.1]
    decide
  · exact (ttl_sentinel_semantics cacheWithT (6 * nanosPerSec) "t").2.2.1
      (mkEntry 0 (.vint 1) ttlOptions) (Ttl.new 0 (5 * nanosPerSec)) rfl rfl
      (by decide)
  · exact (ttl_sentinel_semantics (Cache.new Config.default) 0 "t").1 rfl

/-! ## Claim C10 -/

/-- C10: for a present key, `expire` and `persist` change only that entry's
`ttl` field (to a fresh non-sliding TTL, resp. to none): its other fields
and every other key's entry are untouched, and the counters and the memory
gauge are unchanged. -/
theorem expire_persist_frame (c : Cache) (now seconds : Nat) (key : String)
    (e : Entry) (h : lookupE c.data key = some e) :
    (c.expire now key seconds).1 = 1 ∧
    (c.expire now key seconds).2.stats = c.stats ∧
    lookupE (c.expire now key seconds).2.data key =
      some { e with ttl := some (Ttl.new now (seconds * nanosPerSec)) } ∧
    (∀ q, q ≠ key → lookupE (c.expire now key seconds).2.data q = lookupE c.data q) ∧
    (c.persist key).1 = 1 ∧
    (c.persist key).2.stats = c.stats ∧
    lookupE (c.persist key).2.data key = some { e with ttl := none } ∧
    (∀ q, q ≠ key → lookupE (c.persist key).2.data q = lookupE c.data q) := by
  refine ⟨?_, ?_, ?_, ?_, ?_, ?_, ?_, ?_⟩
  · simp [Cache.expire, h]
  · simp [Cache.expire, h]
  · simp [Cache.expire, h, lookupE_modifyEntry_self]
  · intro q hq
    simp [Cache.expire, h, lookupE_modifyEntry_ne _ _ hq]
  · simp [Cache.persist, h]
  · simp [Cache.persist, h]
  · simp [Cache.persist, h, lookupE_modifyEntry_self]
  · intro q hq
    simp [Cache.persist, h, lookupE_modifyEntry_ne _ _ hq]

/-- Witness for C10 on a concrete one-entry cache. -/
theorem expire_persist_frame_witness :
    (cacheReplA.expire 7 "a" 9).1 = 1 ∧
    (cacheReplA.expire 7 "a" 9).2.stats = cacheReplA.stats ∧
    lookupE (cacheReplA.persist "a").2.data "a" =
      some { mkEntry 0 (.vint 1) SetOptions.empty with ttl := none } := by
  have h := expire_persist_frame cacheReplA 7 9 "a"
    (mkEntry 0 (.vint 1) SetOptions.empty) rfl
  exact ⟨h.1, h.2.1, h.2.2.2.2.2.2.1⟩

/-! ## Claim C2 (corrected: the memory gauge is *not* decremented) -/

/-- C2 (amended): `get` on a present but invalid entry counts a miss,
removes the key from the store and returns absent — but it performs no
memory-gauge adjustment: `memory_usage` (and the other counters) keep
their prior values. -/
theorem get_invalid_eviction_keeps_gauge (c : Cache) (now : Nat)
    (key : String) (e : Entry) (h : lookupE c.data key = some e)
    (hinv : Entry.is_valid now c.data (c.data.length + 1) e = false) :
    (c.get now key).1 = none ∧
    (c.get now key).2.data = eraseKey c.data key ∧
    (c.get now key).2.stats.misses = c.stats.misses + 1 ∧
    (c.get now key).2.stats.memory_usage = c.stats.memory_usage ∧
    (c.get now key).2.stats.hits = c.stats.hits ∧
    (c.get now key).2.stats.sets = c.stats.sets ∧
    (c.get now key).2.stats.deletes = c.stats.deletes := by
  refine ⟨?_, ?_, ?_, ?_, ?_, ?_, ?_⟩ <;> simp [Cache.get, h, hinv]

/-- Witness for C2's amended theorem: lazily evicting the expired entry
at `t` leaves the gauge where it was. -/
theorem get_invalid_eviction_keeps_gauge_witness :
    (cacheWithT.get (6 * nanosPerSec) "t").1 = none ∧
    (cacheWithT.get (6 * nanosPerSec) "t").2.stats.memory_usage =
      cacheWithT.stats.memory_usage := by
  have h := get_invalid_eviction_keeps_gauge cacheWithT (6 * nanosPerSec) "t"
    (mkEntry 0 (.vint 1) ttlOptions) rfl rfl
  exact ⟨h.1, h.2.2.2.1⟩

/-- Counterexample to C2 as stated: the entry at `t` is present and
invalid, `get` counts a miss, removes it and returns absent, yet the gauge
ends at its prior value (425), not at the claimed prior value minus
key capacity + entry usage (425 - 169 = 256). -/
theorem get_invalid_no_decrement_cex :
    lookupE cacheWithT.data "t" = some (mkEntry 0 (.vint 1) ttlOptions) ∧
    Entry.is_valid (6 * nanosPerSec) cacheWithT.data (cacheWithT.data.length + 1)
      (mkEntry 0 (.vint 1) ttlOptions) = false ∧
    (cacheWithT.get (6 * nanosPerSec) "t").1 = none ∧
    lookupE (cacheWithT.get (6 * nanosPerSec) "t").2.data "t" = none ∧
    (cacheWithT.get (6 * nanosPerSec) "t").2.stats.misses =
      cacheWithT.stats.misses + 1 ∧
    (cacheWithT.get (6 * nanosPerSec) "t").2.stats.memory_usage ≠
      cacheWithT.stats.memory_usage -
        (strT.cap + (mkEntry 0 (.vint 1) ttlOptions).memory_usage) :=
  ⟨rfl, rfl, rfl, rfl, rfl, by decide⟩

/-! ## Claim C8 -/

/-- C8: after a successful `set` with default options, an immediate `get`
(at any instant) returns the written value. -/
theorem set_get_roundtrip (c c2 : Cache) (now now2 : Nat) (key : Str)
    (v : Value) (h : c.set now key v SetOptions.empty = (.ok true, c2)) :
    (c2.get now2 key.data).1 = some v := by
  simp only [Cache.set, SetOptions.empty, Bool.false_and, Bool.false_eq_true,
    if_false, Cache.insert_entry] at h
  split at h
  next hmemf => simp [Except.map] at h
  next hmemf =>
    split at h
    next hkeyf => simp [Except.map] at h
    next hkeyf =>
      simp only [Except.map] at h
      rw [Prod.mk.injEq] at h
      obtain ⟨-, hc⟩ := h
      rw [← hc]
      rw [Cache.get]
      rw [lookupE_insertStore_self]
      have hval : ∀ (d : List (Str × Entry)) (n : Nat),
          Entry.is_valid now2 d (n + 1)
            { value := v, ttl := none, parent := none, access_count := 0,
              last_accessed := now, created_at := now } = true := fun d n => rfl
      simp [mkEntry, hval]

/-- Witness for C8 at a concrete write. -/
theorem set_get_roundtrip_witness :
    (((Cache.new Config.default).set 0 strA (.vint 7) SetOptions.empty).2.get
      3 "a").1 = some (.vint 7) :=
  set_get_roundtrip (Cache.new Config.default)
    ((Cache.new Config.default).set 0 strA (.vint 7) SetOptions.empty).2
    0 3 strA (.vint 7) rfl

/-! ## Claim C6 -/

/-- C6: admission rejections are atomic — any `set` that returns an error
leaves the cache (store, `len`, `memory_usage`, `sets` counter) exactly as
it was; `MemoryLimitExceeded` occurs exactly when the gauge plus the full
delta would exceed `max_memory`; `KeyLimitExceeded` occurs only when the
key count is at `max_keys` and the key is new; and an overwrite of an
existing key passes admission even at the key limit. -/
theorem admission_rejection_atomic (c : Cache) (now : Nat) (key : Str)
    (v : Value) (opts : SetOptions) :
    (∀ err, (c.set now key v opts).1 = .error err → (c.set now key v opts).2 = c) ∧
    ((c.set now key v opts).1 = .error .memoryLimitExceeded →
      ∃ mm, c.config.max_memory = some mm ∧
        c.stats.memory_usage + (key.cap + (mkEntry now v opts).memory_usage) > mm) ∧
    ((c.set now key v opts).1 = .error .keyLimitExceeded →
      ∃ mx, c.config.max_keys = some mx ∧ c.data.length ≥ mx ∧
        containsKey c.data key.data = false) ∧
    (opts.parent = none → opts.nx = false → containsKey c.data key.data = true →
      (∀ mm, c.config.max_memory = some mm →
        c.stats.memory_usage + (key.cap + (mkEntry now v opts).memory_usage) ≤ mm) →
      (c.set now key v opts).1 = .ok true) := by
  generalize hset : c.set now key v opts = r
  simp only [Cache.set, Cache.insert_entry] at hset
  split at hset
  next hnx =>
    rw [← hset]
    refine ⟨by simp, by simp, by simp, ?_⟩
    intro hp hnxf hcont hmem
    rw [hnxf] at hnx
    simp at hnx
  next hnx =>
    split at hset
    next hxx =>
      rw [← hset]
      refine ⟨by simp, by simp, by simp, ?_⟩
      intro hp hnxf hcont hmem
      rw [hcont] at hxx
      simp at hxx
    next hxx =>
      split at hset
      next parent_key hp =>
        split at hset
        next hdep =>
          rw [← hset]
          refine ⟨fun err _ => rfl, by simp, by simp, ?_⟩
          intro hpn
          rw [hp] at hpn
          cases hpn
        next hdep =>
          split at hset
          next hpar =>
            rw [← hset]
            refine ⟨fun err _ => rfl, by simp, by simp, ?_⟩
            intro hpn
            rw [hp] at hpn
            cases hpn
          next hpar =>
            split at hset
            next hcyc =>
              rw [← hset]
              refine ⟨fun err _ => rfl, by simp, by simp, ?_⟩
              intro hpn
              rw [hp] at hpn
              cases hpn
            next hcyc =>
              split at hset
              next hmemf =>
                rw [← hset]
                refine ⟨fun err _ => rfl, ?_, by simp [Except.map], ?_⟩
                · intro _
                  split at hmemf
                  next mm hmm => exact ⟨mm, hmm, of_decide_eq_true hmemf⟩
                  next => cases hmemf
                · intro hpn
                  rw [hp] at hpn
                  cases hpn
              next hmemf =>
                split at hset
                next hkeyf =>
                  rw [← hset]
                  refine ⟨fun err _ => rfl, by simp [Except.map], ?_, ?_⟩
                  · intro _
                    split at hkeyf
                    next mx hmx =>
                      rw [Bool.and_eq_true] at hkeyf
                      refine ⟨mx, hmx, of_decide_eq_true hkeyf.1, ?_⟩
                      have h2 := hkeyf.2
                      simp only [Bool.not_eq_true'] at h2
                      exact h2
                    next => cases hkeyf
                  · intro hpn
                    rw [hp] at hpn
                    cases hpn
                next hkeyf =>
                  rw [← hset]
                  refine ⟨?_, by simp [Except.map], by simp [Except.map],
                    fun _ _ _ _ => rfl⟩
                  intro err herr
                  simp [Except.map] at herr
      next hp =>
        split at hset
        next hmemf =>
          rw [← hset]
          refine ⟨fun err _ => rfl, ?_, by simp [Except.map], ?_⟩
          · intro _
            split at hmemf
            next mm hmm => exact ⟨mm, hmm, of_decide_eq_true hmemf⟩
            next => cases hmemf
          · intro hpn hnxf hcont hmem
            split at hmemf
            next mm hmm =>
              have hgt := of_decide_eq_true hmemf
              exact absurd (hmem mm hmm) (Nat.not_le.mpr hgt)
            next => cases hmemf
        next hmemf =>
          split at hset
          next hkeyf =>
            rw [← hset]
            refine ⟨fun err _ => rfl, by simp [Except.map], ?_, ?_⟩
            · intro _
              split at hkeyf
              next mx hmx =>
                rw [Bool.and_eq_true] at hkeyf
                refine ⟨mx, hmx, of_decide_eq_true hkeyf.1, ?_⟩
                have h2 := hkeyf.2
                simp only [Bool.not_eq_true'] at h2
                exact h2
              next => cases hkeyf
            · intro hpn hnxf hcont hmem
              split at hkeyf
              next mx hmx =>
                rw [Bool.and_eq_true, hcont] at hkeyf
                simp at hkeyf
              next => cases hkeyf
          next hkeyf =>
            rw [← hset]
            refine ⟨?_, by simp [Except.map], by simp [Except.map],
              fun _ _ _ _ => rfl⟩
            intro err herr
            simp [Except.map] at herr

/-- Witness for C6: at the one-key limit a new key is rejected with the
cache unchanged, while an overwrite of the existing key is admitted. -/
theorem admission_rejection_atomic_witness :
    (cacheKeyLim.set 0 strB (.vint 2) SetOptions.empty).2 = cacheKeyLim ∧
    (cacheKeyLim.set 0 strA (.vint 5) SetOptions.empty).1 = .ok true := by
  constructor
  · exact (admission_rejection_atomic cacheKeyLim 0 strB (.vint 2)
      SetOptions.empty).1 CacheError.keyLimitExceeded rfl
  · exact (admission_rejection_atomic cacheKeyLim 0 strA (.vint 5)
      SetOptions.empty).2.2.2 rfl rfl rfl
      (fun mm hmm => by
        rw [show cacheKeyLim.config.max_memory = none from rfl] at hmm
        cases hmm)

/-! ## Claim C1 (corrected: no replacement adjustment) -/

/-- C1 (amended): a `set` that replaces an existing entry adds the *full*
new delta (new key capacity + new entry usage) to `memory_usage`, without
subtracting the replaced entry's contribution, and the `max_memory`
admission check likewise compares `memory_usage` plus the full new delta
— `MemoryLimitExceeded` is returned exactly when that unadjusted sum
exceeds the limit. -/
theorem set_replacement_adds_full_delta (c : Cache) (now : Nat) (key : Str)
    (v : Value) (opts : SetOptions)
    (hrepl : containsKey c.data key.data = true) :
    (∀ c2, c.set now key v opts = (.ok true, c2) →
      c2.stats.memory_usage =
        c.stats.memory_usage + (key.cap + (mkEntry now v opts).memory_usage) ∧
      (∀ mm, c.config.max_memory = some mm →
        c.stats.memory_usage + (key.cap + (mkEntry now v opts).memory_usage) ≤ mm)) ∧
    ((c.set now key v opts).1 = .error .memoryLimitExceeded →
      ∃ mm, c.config.max_memory = some mm ∧
        c.stats.memory_usage + (key.cap + (mkEntry now v opts).memory_usage) > mm) := by
  clear hrepl
  generalize hset : c.set now key v opts = r
  simp only [Cache.set, Cache.insert_entry] at hset
  split at hset
  next hnx =>
    rw [← hset]
    exact ⟨fun c2 hc2 => absurd hc2 (by simp), by simp⟩
  next hnx =>
    split at hset
    next hxx =>
      rw [← hset]
      exact ⟨fun c2 hc2 => absurd hc2 (by simp), by simp⟩
    next hxx =>
      split at hset
      next parent_key hp =>
        split at hset
        next hdep =>
          rw [← hset]
          exact ⟨fun c2 hc2 => absurd hc2 (by simp), by simp⟩
        next hdep =>
          split at hset
          next hpar =>
            rw [← hset]
            exact ⟨fun c2 hc2 => absurd hc2 (by simp), by simp⟩
          next hpar =>
            split at hset
            next hcyc =>
              rw [← hset]
              exact ⟨fun c2 hc2 => absurd hc2 (by simp), by simp⟩
            next hcyc =>
              split at hset
              next hmemf =>
                rw [← hset]
                refine ⟨fun c2 hc2 => absurd hc2 (by simp [Except.map]), ?_⟩
                intro _
                split at hmemf
                next mm hmm => exact ⟨mm, hmm, of_decide_eq_true hmemf⟩
                next => cases hmemf
              next hmemf =>
                split at hset
                next hkeyf =>
                  rw [← hset]
                  exact ⟨fun c2 hc2 => absurd hc2 (by simp [Except.map]),
                    by simp [Except.map]⟩
                next hkeyf =>
                  rw [← hset]
                  refine ⟨?_, by simp [Except.map]⟩
                  intro c2 hc2
                  simp only [Except.map] at hc2
                  rw [Prod.mk.injEq] at hc2
                  obtain ⟨-, hc⟩ := hc2
                  constructor
                  · rw [← hc]
                  · intro mm hmm
                    rw [hmm] at hmemf
                    simp only [decide_eq_true_eq] at hmemf
                    exact Nat.le_of_not_lt hmemf
      next hp =>
        split at hset
        next hmemf =>
          rw [← hset]
          refine ⟨fun c2 hc2 => absurd hc2 (by simp [Except.map]), ?_⟩
          intro _
          split at hmemf
          next mm hmm => exact ⟨mm, hmm, of_decide_eq_true hmemf⟩
          next => cases hmemf
        next hmemf =>
          split at hset
          next hkeyf =>
            rw [← hset]
            exact ⟨fun c2 hc2 => absurd hc2 (by simp [Except.map]),
              by simp [Except.map]⟩
          next hkeyf =>
            rw [← hset]
            refine ⟨?_, by simp [Except.map]⟩
            intro c2 hc2
            simp only [Except.map] at hc2
            rw [Prod.mk.injEq] at hc2
            obtain ⟨-, hc⟩ := hc2
            constructor
            · rw [← hc]
            · intro mm hmm
              rw [hmm] at hmemf
              simp only [decide_eq_true_eq] at hmemf
              exact Nat.le_of_not_lt hmemf

/-- Witness for C1's amended theorem: overwriting key `a` adds the full
169-byte delta to the gauge. -/
theorem set_replacement_adds_full_delta_witness :
    containsKey cacheReplA.data "a" = true ∧
    cacheReplB.stats.memory_usage = cacheReplA.stats.memory_usage +
      (strA.cap + (mkEntry 0 (.vint 2) SetOptions.empty).memory_usage) := by
  refine ⟨rfl, ?_⟩
  exact ((set_replacement_adds_full_delta cacheReplA 0 strA (.vint 2)
    SetOptions.empty rfl).1 cacheReplB rfl).1

/-- Counterexample to C1 as stated: replacing the entry at `a` by a
same-sized value has a replacement-adjusted delta of 0, so the claim
predicts an unchanged gauge and a trivially-passing admission check; the
code instead grows the gauge by the full delta (425 → 594) and, under a
500-byte limit where the adjusted check would admit (425 + 0 ≤ 500),
rejects the overwrite with `MemoryLimitExceeded` (425 + 169 > 500). -/
theorem set_replacement_adjusted_delta_cex :
    lookupE cacheReplA.data "a" = some (mkEntry 0 (.vint 1) SetOptions.empty) ∧
    (cacheReplA.set 0 strA (.vint 2) SetOptions.empty).1 = .ok true ∧
    (strA.cap + (mkEntry 0 (.vint 2) SetOptions.empty).memory_usage) -
      (strA.cap + (mkEntry 0 (.vint 1) SetOptions.empty).memory_usage) = 0 ∧
    cacheReplB.stats.memory_usage ≠ cacheReplA.stats.memory_usage + 0 ∧
    cacheLimA.config.max_memory = some 500 ∧
    cacheLimA.stats.memory_usage +
      ((strA.cap + (mkEntry 0 (.vint 2) SetOptions.empty).memory_usage) -
        (strA.cap + (mkEntry 0 (.vint 1) SetOptions.empty).memory_usage)) ≤ 500 ∧
    (cacheLimA.set 0 strA (.vint 2) SetOptions.empty).1 =
      .error .memoryLimitExceeded :=
  ⟨rfl, rfl, by decide, by decide, rfl, by decide, rfl⟩

/-! ## Claim C3 (corrected: `set_parent` skips the check) -/

/-- C3 (amended): with `enable_dependencies = false`, `set` with a parent
option fails with `DependenciesDisabled` (when not short-circuited by
nx/xx), but `set_parent` performs no such check: it never returns
`DependenciesDisabled` on any input. -/
theorem set_parent_ignores_dependencies_flag (c : Cache) (now : Nat)
    (key : Str) (v : Value) (opts : SetOptions) (p : Str)
    (hdis : c.config.enable_dependencies = false) :
    (opts.parent = some p → opts.nx = false → opts.xx = false →
      c.set now key v opts = (.error .dependenciesDisabled, c)) ∧
    (∀ q : String, (c.set_parent q p).1 ≠ .error .dependenciesDisabled) := by
  constructor
  · intro hp hnx hxx
    simp [Cache.set, hp, hnx, hxx, hdis]
  · intro q
    rw [Cache.set_parent]
    split
    next => simp
    next =>
      split
      next => simp
      next =>
        split
        next => simp
        next => simp

/-- Witness for C3's amended theorem on the dependencies-disabled cache. -/
theorem set_parent_ignores_dependencies_flag_witness :
    cacheNoDeps.set 0 strK (.vint 3) (parentOptions strP) =
      (.error .dependenciesDisabled, cacheNoDeps) ∧
    (cacheNoDeps.set_parent "k" strP).1 ≠ .error .dependenciesDisabled := by
  have h := set_parent_ignores_dependencies_flag cacheNoDeps 0 strK (.vint 3)
    (parentOptions strP) strP rfl
  exact ⟨h.1 rfl rfl rfl, h.2 "k"⟩

/-- Counterexample to C3 as stated: on a dependencies-disabled cache
holding `p` and `k`, `set_parent(k, p)` succeeds (returns 1) instead of
failing with `DependenciesDisabled`. -/
theorem set_parent_with_dependencies_disabled_cex :
    noDepsConfig.enable_dependencies = false ∧
    (cacheNoDeps.set_parent "k" strP).1 = .ok 1 ∧
    (cacheNoDeps.set_parent "k" strP).1 ≠ .error .dependenciesDisabled := by
  refine ⟨rfl, rfl, ?_⟩
  intro h
  rw [show (cacheNoDeps.set_parent "k" strP).1 = .ok 1 from rfl] at h
  exact Except.noConfusion h

/-! ## Claim C5 (corrected: earlier checks can pre-empt the cycle error) -/

/-- C5 (amended): when the parent key exists in the store and (for `set`
with a parent option, nx/xx unset) dependencies are enabled, any
attachment whose upward parent chain from `parent` reaches `key`
(including `key = parent`) returns `DependencyCycle` and leaves the cache
— store contents, stats counters and memory gauge — unchanged.  (When the
parent is absent, `ParentNotFound` is returned first; when dependencies
are disabled, `set` returns `DependenciesDisabled` first.) -/
theorem cycle_rejection_with_existing_parent (c : Cache) (now : Nat)
    (key : Str) (v : Value) (opts : SetOptions) (parent : Str)
    (hpar : containsKey c.data parent.data = true)
    (hreach : ∃ n, chainIter c.data n parent.data = some key.data) :
    (c.config.enable_dependencies = true → opts.parent = some parent →
      opts.nx = false → opts.xx = false →
      c.set now key v opts = (.error (.dependencyCycle key.data parent.data), c)) ∧
    c.set_parent key.data parent =
      (.error (.dependencyCycle key.data parent.data), c) := by
  have hcyc := @would_create_cycle_of_reach c key.data parent.data hreach
  constructor
  · intro hdep hp hnx hxx
    simp [Cache.set, hp, hnx, hxx, hdep, hpar, hcyc]
  · simp [Cache.set_parent, hpar, hcyc]

/-- Witness for C5's amended theorem: re-parenting `a` under `b` in the
chain `c → b → a` is rejected as a cycle by both operations, leaving the
cache unchanged. -/
theorem cycle_rejection_with_existing_parent_witness :
    chainCache.set_parent "a" strB =
      (.error (.dependencyCycle "a" "b"), chainCache) ∧
    chainCache.set 0 strA (.vint 9) (parentOptions strB) =
      (.error (.dependencyCycle "a" "b"), chainCache) := by
  have h := cycle_rejection_with_existing_parent chainCache 0 strA (.vint 9)
    (parentOptions strB) strB rfl ⟨1, rfl⟩
  exact ⟨h.2, h.1 rfl rfl rfl rfl⟩

/-- Counterexample to C5 as stated: with `key = parent = "a"` on an empty
store the chain trivially reaches the key, yet `set_parent` returns
`ParentNotFound`, not `DependencyCycle`. -/
theorem cycle_rejection_missing_parent_cex :
    chainIter (Cache.new Config.default).data 0 "a" = some "a" ∧
    ((Cache.new Config.default).set_parent "a" strA).1 =
      .error (.parentNotFound "a") ∧
    ((Cache.new Config.default).set_parent "a" strA).1 ≠
      .error (.dependencyCycle "a" "a") := by
  refine ⟨rfl, rfl, ?_⟩
  intro h
  rw [show ((Cache.new Config.default).set_parent "a" strA).1 =
    .error (.parentNotFound "a") from rfl] at h
  simp at h

/-! ## Breadth-first levels vs parent chains (claim C4 machinery) -/

theorem levelEntries_nil (data : List (Str × Entry)) : levelEntries data [] = [] := by
  rw [levelEntries, List.filter_eq_nil_iff]
  intro kv _
  cases hp : kv.2.parent <;> simp [hp]

theorem level_empty_persist (data : List (Str × Entry)) (target : String)
    {d d' : Nat} (h : levelKeys data target d = []) (hle : d ≤ d') :
    levelKeys data target d' = [] := by
  obtain ⟨e, rfl⟩ := Nat.exists_eq_add_of_le hle
  induction e with
  | zero => exact h
  | succ e ihe =>
    have hde : d + (e + 1) = (d + e) + 1 := by omega
    rw [hde]
    show (levelEntries data (levelKeys data target (d + e))).map
      (fun kv => kv.1.data) = []
    rw [ihe (by omega), levelEntries_nil]
    rfl

theorem mem_level_iff_chain {data : List (Str × Entry)}
    (hnd : (storeKeys data).Nodup) (target : String) :
    ∀ (d : Nat) (k : String),
      k ∈ levelKeys data target d ↔ chainIter data d k = some target := by
  intro d
  induction d with
  | zero =>
    intro k
    simp [levelKeys, chainIter]
  | succ d ih =>
    intro k
    constructor
    · intro hk
      rw [levelKeys] at hk
      obtain ⟨kv, hkv, hkd⟩ := List.mem_map.mp hk
      rw [levelEntries, List.mem_filter] at hkv
      obtain ⟨hmem, hpred⟩ := hkv
      cases hp : kv.2.parent with
      | none => rw [hp] at hpred; cases hpred
      | some p =>
        rw [hp] at hpred
        have hpl : p.data ∈ levelKeys data target d := by
          simpa using hpred
        have hchain : chainIter data d p.data = some target := (ih p.data).mp hpl
        have hlk : lookupE data k = some kv.2 := by
          rw [← hkd]
          exact lookupE_eq_some_of_mem hnd hmem
        have hps : parentStep data k = some p.data := by
          simp [parentStep, hlk, hp]
        simp only [chainIter, hps]
        exact hchain
    · intro hc
      rw [chainIter] at hc
      split at hc
      next p' hps =>
        have hpl : p' ∈ levelKeys data target d := (ih p').mpr hc
        rw [parentStep] at hps
        split at hps
        next e hle =>
          obtain ⟨pS, hpS, hpSd⟩ := Option.map_eq_some'.mp hps
          obtain ⟨kS, hmemS, hkS⟩ := exists_mem_of_lookupE hle
          rw [levelKeys]
          apply List.mem_map.mpr
          refine ⟨(kS, e), ?_, hkS⟩
          rw [levelEntries, List.mem_filter]
          refine ⟨hmemS, ?_⟩
          rw [hpS]
          simpa [hpSd] using hpl
        next hle => cases hps
      next hps => cases hc

theorem level_sublist (data : List (Str × Entry)) (target : String) (d : Nat) :
    List.Sublist (levelKeys data target (d+1)) (storeKeys data) :=
  List.Sublist.map _ (List.filter_sublist data)

theorem level_nodup {data : List (Str × Entry)}
    (hnd : (storeKeys data).Nodup) (target : String) :
    ∀ d, (levelKeys data target d).Nodup
  | 0 => List.nodup_singleton target
  | d + 1 => hnd.sublist (level_sublist data target d)

theorem level_disjoint {data : List (Str × Entry)}
    (hnd : (storeKeys data).Nodup) (hterm : Terminating data) {target : String}
    {d d' : Nat} {k : String} (hlt : d < d')
    (h1 : k ∈ levelKeys data target d) (h2 : k ∈ levelKeys data target d') :
    False := by
  rw [mem_level_iff_chain hnd] at h1 h2
  have hdd : d' = d + (d' - d) := by omega
  rw [hdd] at h2
  obtain ⟨x, hx1, hx2⟩ := chainIter_split h2
  rw [h1] at hx1
  cases Option.some_inj.mp hx1
  exact no_cycle_of_terminating hterm (by omega) hx2

/-- The representative of a nonempty breadth-first level. -/
def levelPick (data : List (Str × Entry)) (target : String) (i : Nat) : String :=
  (levelKeys data target (i+1)).head?.getD ""

theorem head_getD_mem {α : Type} (l : List α) (x : α) (h : l ≠ []) :
    l.head?.getD x ∈ l := by
  cases l with
  | nil => cases h rfl
  | cons a t => simp

theorem nonempty_levels_bound {data : List (Str × Entry)}
    (hnd : (storeKeys data).Nodup) (hterm : Terminating data) (target : String)
    {D : Nat} (hne : ∀ i, 1 ≤ i → i ≤ D → levelKeys data target i ≠ []) :
    D ≤ data.length := by
  have hgmem : ∀ i, i < D → levelPick data target i ∈ levelKeys data target (i+1) :=
    fun i hi => head_getD_mem _ _ (hne (i+1) (by omega) (by omega))
  have hinj : ∀ x ∈ List.range D, ∀ y ∈ List.range D,
      levelPick data target x = levelPick data target y → x = y := by
    intro x hx y hy hxy
    rw [List.mem_range] at hx hy
    by_contra hne2
    rcases Nat.lt_or_ge x y with hlt | hge
    · exact level_disjoint hnd hterm (show x+1 < y+1 by omega) (hgmem x hx)
        (hxy ▸ hgmem y hy)
    · exact level_disjoint hnd hterm (show y+1 < x+1 by omega) (hgmem y hy)
        (hxy ▸ hgmem x hx)
  have hnd2 : ((List.range D).map (levelPick data target)).Nodup :=
    (List.nodup_range D).map_on hinj
  have hsub : (List.range D).map (levelPick data target) ⊆ storeKeys data := by
    intro z hz
    obtain ⟨i, hi, hgi⟩ := List.mem_map.mp hz
    rw [List.mem_range] at hi
    rw [← hgi]
    exact (level_sublist data target i).subset (hgmem i hi)
  have hlen : D = ((List.range D).map (levelPick data target)).length := by
    rw [List.length_map, List.length_range]
  rw [hlen, ← List.toFinset_card_of_nodup hnd2]
  calc ((List.range D).map (levelPick data target)).toFinset.card
      ≤ (storeKeys data).toFinset.card := by
        apply Finset.card_le_card
        intro x hx
        rw [List.mem_toFinset] at hx ⊢
        exact hsub hx
    _ ≤ (storeKeys data).length := (storeKeys data).toFinset_card_le
    _ = data.length := by rw [storeKeys, List.length_map]

theorem chain_depth_bound {data : List (Str × Entry)}
    (hnd : (storeKeys data).Nodup) (hterm : Terminating data)
    {d : Nat} {k target : String} (hd : 1 ≤ d)
    (hc : chainIter data d k = some target) : d ≤ data.length := by
  apply nonempty_levels_bound hnd hterm target
  intro i h1 hiD
  have hdd : d = (d - i) + i := by omega
  rw [hdd] at hc
  obtain ⟨x, hx1, hx2⟩ := chainIter_split hc
  exact List.ne_nil_of_mem ((mem_level_iff_chain hnd target i x).mpr hx2)

theorem childrenRecAux_mem (data : List (Str × Entry)) (target : String) :
    ∀ (fuel j d : Nat) (k : String),
      (k, d) ∈ childrenRecAux data fuel (j+1) (levelKeys data target j) ↔
      (j+1 ≤ d ∧ d ≤ j + fuel ∧ k ∈ levelKeys data target d) := by
  intro fuel
  induction fuel with
  | zero =>
    intro j d k
    simp only [childrenRecAux, List.not_mem_nil, false_iff]
    intro hcon
    omega
  | succ fuel ih =>
    intro j d k
    rw [childrenRecAux]
    by_cases hemp : (levelKeys data target j).isEmpty
    · rw [if_pos hemp]
      have hje : levelKeys data target j = [] := List.isEmpty_iff.mp hemp
      simp only [List.not_mem_nil, false_iff]
      rintro ⟨h1, h2, h3⟩
      have hde : levelKeys data target d = [] :=
        level_empty_persist data target hje (by omega)
      rw [hde] at h3
      cases h3
    · rw [if_neg hemp]
      rw [List.mem_append]
      have hmap : (levelEntries data (levelKeys data target j)).map
          (fun kv => kv.1.data) = levelKeys data target (j+1) := rfl
      constructor
      · rintro (hin1 | hin2)
        · obtain ⟨kv, hkv, heq⟩ := List.mem_map.mp hin1
          rw [Prod.mk.injEq] at heq
          obtain ⟨hk, hd⟩ := heq
          refine ⟨by omega, by omega, ?_⟩
          rw [← hd, ← hmap]
          exact List.mem_map.mpr ⟨kv, hkv, hk⟩
        · have hin2' : (k, d) ∈ childrenRecAux data fuel ((j+1)+1)
              (levelKeys data target (j+1)) := hin2
          have hres := (ih (j+1) d k).mp hin2'
          exact ⟨by omega, by omega, hres.2.2⟩
      · rintro ⟨h1, h2, h3⟩
        by_cases hdj : d = j+1
        · left
          subst hdj
          rw [← hmap] at h3
          obtain ⟨kv, hkv, hk⟩ := List.mem_map.mp h3
          exact List.mem_map.mpr ⟨kv, hkv, by rw [hk]⟩
        · right
          have hgoal : (k, d) ∈ childrenRecAux data fuel ((j+1)+1)
              (levelKeys data target (j+1)) :=
            (ih (j+1) d k).mpr ⟨by omega, by omega, h3⟩
          exact hgoal

theorem childrenRecAux_keys_nodup {data : List (Str × Entry)}
    (hnd : (storeKeys data).Nodup) (hterm : Terminating data) (target : String) :
    ∀ (fuel j : Nat),
      ((childrenRecAux data fuel (j+1) (levelKeys data target j)).map
        Prod.fst).Nodup := by
  intro fuel
  induction fuel with
  | zero =>
    intro j
    simp [childrenRecAux]
  | succ fuel ih =>
    intro j
    rw [childrenRecAux]
    by_cases hemp : (levelKeys data target j).isEmpty
    · rw [if_pos hemp]
      simp
    · rw [if_neg hemp]
      rw [List.map_append, List.nodup_append]
      refine ⟨?_, ?_, ?_⟩
      · rw [List.map_map]
        exact level_nodup hnd target (j+1)
      · exact ih (j+1)
      · intro x hx1 hx2
        rw [List.map_map] at hx1
        have hx1' : x ∈ levelKeys data target (j+1) := hx1
        obtain ⟨p, hp, hpx⟩ := List.mem_map.mp hx2
        have hp' : (p.1, p.2) ∈ childrenRecAux data fuel ((j+1)+1)
            (levelKeys data target (j+1)) := hp
        obtain ⟨hd1, hd2, hmem⟩ := (childrenRecAux_mem data target fuel (j+1) p.2 p.1).mp hp'
        exact level_disjoint hnd hterm (show j+1 < p.2 by omega) hx1'
          (by rw [hpx] at hmem; exact hmem)

theorem reachesWithin_iff (data : List (Str × Entry)) (B : Nat) (k t : String) :
    reachesWithin data B k t = true ↔
      ∃ d, 1 ≤ d ∧ d ≤ B ∧ chainIter data d k = some t := by
  rw [reachesWithin, List.any_eq_true]
  constructor
  · rintro ⟨d, hd, hp⟩
    rw [Bool.and_eq_true, decide_eq_true_eq, decide_eq_true_eq] at hp
    rw [List.mem_range] at hd
    exact ⟨d, hp.1, by omega, hp.2⟩
  · rintro ⟨d, h1, h2, h3⟩
    refine ⟨d, List.mem_range.mpr (by omega), ?_⟩
    rw [Bool.and_eq_true, decide_eq_true_eq, decide_eq_true_eq]
    exact ⟨h1, h3⟩

theorem mem_transitiveDescendantKeys (data : List (Str × Entry))
    (target k : String) :
    k ∈ transitiveDescendantKeys data target ↔
      k ∈ storeKeys data ∧ reachesWithin data data.length k target = true := by
  rw [transitiveDescendantKeys]
  constructor
  · intro h
    obtain ⟨kv, hkv, hk⟩ := List.mem_map.mp h
    rw [List.mem_filter] at hkv
    refine ⟨?_, by rw [← hk]; exact hkv.2⟩
    rw [← hk]
    exact List.mem_map.mpr ⟨kv, hkv.1, rfl⟩
  · rintro ⟨hmem, hreach⟩
    obtain ⟨kv, hkv, hk⟩ := List.mem_map.mp hmem
    refine List.mem_map.mpr ⟨kv, List.mem_filter.mpr ⟨hkv, ?_⟩, hk⟩
    rw [hk]
    exact hreach

theorem nodup_transitiveDescendantKeys {data : List (Str × Entry)}
    (hnd : (storeKeys data).Nodup) (target : String) :
    (transitiveDescendantKeys data target).Nodup :=
  hnd.sublist (List.Sublist.map _ (List.filter_sublist data))

theorem length_eq_of_nodup_iff {α : Type} [DecidableEq α] {l1 l2 : List α}
    (h1 : l1.Nodup) (h2 : l2.Nodup) (h : ∀ x, x ∈ l1 ↔ x ∈ l2) :
    l1.length = l2.length := by
  rw [← List.toFinset_card_of_nodup h1, ← List.toFinset_card_of_nodup h2]
  congr 1
  ext x
  rw [List.mem_toFinset, List.mem_toFinset]
  exact h x

/-! ## Claim C4 (corrected: the count is transitive, not direct) -/

/-- C4 (amended): for every key, the `KeyInfo` returned by GetInfo has
`children_count` equal to the number of *transitive* descendants of that
key in the post-`get` store — every stored key whose parent chain reaches
the key, at any depth — not the number of direct children.  (The store is
assumed duplicate-free, with terminating parent chains — the invariant the
cycle check maintains — and no larger than `usize::MAX`.) -/
theorem getinfo_children_count_transitive (c : Cache) (now : Nat)
    (key : String)
    (hnd : (storeKeys (c.get now key).2.data).Nodup)
    (hterm : Terminating (c.get now key).2.data)
    (hsize : (c.get now key).2.data.length ≤ usizeMax) :
    (execGetInfo c now key).1.children_count =
      (transitiveDescendantKeys (c.get now key).2.data key).length := by
  have hind : (execGetInfo c now key).1.children_count =
      (childrenRecAux (c.get now key).2.data usizeMax (0+1)
        (levelKeys (c.get now key).2.data key 0)).length := rfl
  rw [hind, ← List.length_map _ Prod.fst]
  apply length_eq_of_nodup_iff
  · exact childrenRecAux_keys_nodup hnd hterm key usizeMax 0
  · exact nodup_transitiveDescendantKeys hnd key
  · intro x
    constructor
    · intro hx
      obtain ⟨p, hp, hpx⟩ := List.mem_map.mp hx
      have hp' : (p.1, p.2) ∈ childrenRecAux (c.get now key).2.data usizeMax
          (0+1) (levelKeys (c.get now key).2.data key 0) := hp
      obtain ⟨h1, h2, h3⟩ :=
        (childrenRecAux_mem (c.get now key).2.data key usizeMax 0 p.2 p.1).mp hp'
      rw [mem_level_iff_chain hnd] at h3
      rw [hpx] at h3
      rw [mem_transitiveDescendantKeys]
      refine ⟨mem_storeKeys_of_chain_pos (by omega) h3, ?_⟩
      rw [reachesWithin_iff]
      exact ⟨p.2, by omega, chain_depth_bound hnd hterm (by omega) h3, h3⟩
    · intro hx
      rw [mem_transitiveDescendantKeys, reachesWithin_iff] at hx
      obtain ⟨hmem, d, h1, h2, h3⟩ := hx
      apply List.mem_map.mpr
      refine ⟨(x, d), ?_, rfl⟩
      apply (childrenRecAux_mem (c.get now key).2.data key usizeMax 0 d x).mpr
      exact ⟨by omega, by omega, (mem_level_iff_chain hnd key d x).mpr h3⟩

/-- Witness for C4's amended theorem on the chain `c → b → a`. -/
theorem getinfo_children_count_transitive_witness :
    (execGetInfo chainCache 5 "a").1.children_count =
      (transitiveDescendantKeys (chainCache.get 5 "a").2.data "a").length := by
  apply getinfo_children_count_transitive
  · decide
  · intro k hk
    have hks : storeKeys (chainCache.get 5 "a").2.data = ["a", "b", "c"] := rfl
    rw [hks] at hk
    rcases List.mem_cons.mp hk with h | hk
    · exact ⟨1, by rw [h]; rfl⟩
    rcases List.mem_cons.mp hk with h | hk
    · exact ⟨2, by rw [h]; rfl⟩
    rcases List.mem_cons.mp hk with h | hk
    · exact ⟨3, by rw [h]; rfl⟩
    · cases hk
  · decide

/-- Counterexample to C4 as stated: in the chain `c → b → a`, GetInfo on
`a` reports `children_count = 2` (both the child `b` and the grandchild
`c`), while the number of direct children of `a` is 1. -/
theorem getinfo_children_count_direct_cex :
    (execGetInfo chainCache 5 "a").1.children_count = 2 ∧
    (directChildrenKeys chainCache.data "a").length = 1 ∧
    (directChildrenKeys (chainCache.get 5 "a").2.data "a").length = 1 ∧
    (execGetInfo chainCache 5 "a").1.children_count ≠
      (directChildrenKeys chainCache.data "a").length :=
  ⟨rfl, rfl, rfl, by decide⟩
